import Mathlib

/-!
Verification of the firesale typed value codec.

The decode side is code of the repository: the serde-derived `Deserialize`
impls in src/src/api.rs (`FirestoreType`, `FirestoreFields`, `Map`, `Array`,
`GeoPoint`), reached on the live path through
`DatabaseContext::retrieve_document` → `response.json::<Document>()`.
The definitions below embed the semantics of those derived impls as executed
by serde_json's streaming deserializer: externally tagged enum dispatch on
the first key, struct fields with duplicate-field/missing-field checks and
ignored unknown keys, `HashMap` field maps with last-duplicate-wins, the
`serde_aux::deserialize_number_from_string` string-or-number rule into i32,
and chrono RFC3339 timestamp parsing.

The encode side (`encode_field` / `encode_fields`) has no code in src/ — none
of the value types derive `Serialize` — so it is modelled from the spec
(§4.3), applied to the program's value model.

JSON numbers are split into integer and float literals the way serde_json's
`Number` distinguishes them, with the float value held as a rational (every
finite double is rational; the codec never computes with the value).
-/

namespace Firesale

/-- A JSON number literal as serde_json classes it: an integer literal, or a
float-formatted literal (decimal point or exponent) whose exact value is kept
as a rational. Integer literals beyond 64 bits, which serde_json reparses as
floats, do not arise in any claim. -/
inductive JsonNum where
  | intL : Int → JsonNum
  | floatL : Rat → JsonNum

/-- A generic parsed-JSON node, the input shape of the decoder. Objects are
association lists in text order, so duplicate keys and key order — which the
streaming deserializer sees — are represented. -/
inductive Json where
  | null : Json
  | bool : Bool → Json
  | num : JsonNum → Json
  | str : String → Json
  | arr : List Json → Json
  | obj : List (String × Json) → Json

/-- A timestamp instant as calendar components with nanosecond precision,
the shape chrono's `DateTime<Utc>` exposes for the forms used here. -/
structure Ts where
  year : Nat
  month : Nat
  day : Nat
  hour : Nat
  minute : Nat
  second : Nat
  nanos : Nat
deriving DecidableEq

/-- From src/src/api.rs:63-82: the `FirestoreType` enum. `Integer` holds an
i32 in the program, `GeoLocation` an i32/i32 `GeoPoint` (api.rs:54-58),
`Array`/`Map` the `values`/`fields` struct wrappers (api.rs:36-44); the
`Map` payload is a `HashMap` field map, kept here as an insertion-ordered
duplicate-free association list. Lean integers are unbounded, so the i32
bounds appear as the constructibility predicate `WF`. -/
inductive FirestoreType where
  | Integer : Int → FirestoreType
  | Boolean : Bool → FirestoreType
  | String : String → FirestoreType
  | GeoLocation : Int → Int → FirestoreType
  | Array : List FirestoreType → FirestoreType
  | Map : List (String × FirestoreType) → FirestoreType
  | Timestamp : Ts → FirestoreType
  | Null : FirestoreType

/-- The decode failures of the derived impls in api.rs, one constructor per
distinguishable serde_json / serde_aux / std failure class (the program
surfaces them as strings via `errors::json_decode_error`; the human-readable
rendering and position context are abstracted, the distinctions are real):
invalid-type and invalid-value errors tagged by the expected kind, serde's
unknown-variant error, the empty-object and extra-key rejections of
externally tagged enums, struct duplicate/missing field errors, the
`ParseIntError` kinds from `i32::from_str`, chrono's parse failure, and the
no-variant-matched error of `serde_aux`'s untagged string-or-number enum. -/
inductive DeError where
  | invalidType : String → DeError
  | invalidValue : String → DeError
  | unknownVariant : String → DeError
  | expectedVariant : DeError
  | expectedMapEnd : DeError
  | duplicateField : String → DeError
  | missingField : String → DeError
  | intEmpty : DeError
  | intInvalidDigit : DeError
  | intPosOverflow : DeError
  | intNegOverflow : DeError
  | timestampParse : DeError
  | untaggedMismatch : DeError
deriving DecidableEq

/-- One decimal digit as a character. -/
def digitChar : Nat → Char
  | 0 => '0' | 1 => '1' | 2 => '2' | 3 => '3' | 4 => '4'
  | 5 => '5' | 6 => '6' | 7 => '7' | 8 => '8' | _ => '9'

/-- The numeric value of a decimal digit character. -/
def charDigit (c : Char) : Option Nat :=
  if c = '0' then some 0 else if c = '1' then some 1 else if c = '2' then some 2
  else if c = '3' then some 3 else if c = '4' then some 4 else if c = '5' then some 5
  else if c = '6' then some 6 else if c = '7' then some 7 else if c = '8' then some 8
  else if c = '9' then some 9 else none

theorem charDigit_digitChar (d : Nat) (h : d < 10) : charDigit (digitChar d) = some d := by
  interval_cases d <;> decide

theorem digitChar_not_sign (d : Nat) (h : d < 10) :
    digitChar d ≠ '-' ∧ digitChar d ≠ '+' := by
  interval_cases d <;> decide

/-- Decimal digits of a natural number, most significant first. -/
def natDigits (n : Nat) : List Char :=
  if n < 10 then [digitChar n] else natDigits (n / 10) ++ [digitChar (n % 10)]
termination_by n
decreasing_by omega

theorem natDigits_ne_nil (n : Nat) : natDigits n ≠ [] := by
  rw [natDigits]
  split <;> simp

theorem natDigits_head (n : Nat) :
    ∃ d rest, d < 10 ∧ natDigits n = digitChar d :: rest := by
  induction n using Nat.strong_induction_on with
  | _ n ih =>
    rw [natDigits]
    split
    · exact ⟨n, [], by omega, rfl⟩
    · obtain ⟨d, rest, hd, heq⟩ := ih (n / 10) (by omega)
      exact ⟨d, rest ++ [digitChar (n % 10)], hd, by rw [heq]; simp⟩

/-- Smallest 32-bit signed integer, the lower bound of the program's
`Integer(i32)` and `GeoPoint` fields. -/
def i32Min : Int := -(2 ^ 31)

/-- Largest 32-bit signed integer. -/
def i32Max : Int := 2 ^ 31 - 1

/-- From `i32::from_str` (via api.rs:66 `deserialize_number_from_string`):
digit loop of a non-negative parse with the per-step i32 overflow check. -/
def parseI32Pos : List Char → Int → Except DeError Int
  | [], acc => .ok acc
  | c :: cs, acc =>
    match charDigit c with
    | none => .error .intInvalidDigit
    | some d =>
      if i32Max < acc * 10 + d then .error .intPosOverflow
      else parseI32Pos cs (acc * 10 + d)

/-- From `i32::from_str`: digit loop of a negative parse with the per-step
i32 underflow check. -/
def parseI32Neg : List Char → Int → Except DeError Int
  | [], acc => .ok acc
  | c :: cs, acc =>
    match charDigit c with
    | none => .error .intInvalidDigit
    | some d =>
      if acc * 10 - d < i32Min then .error .intNegOverflow
      else parseI32Neg cs (acc * 10 - d)

/-- From `i32::from_str`: an optional sign followed by decimal digits,
within the 32-bit signed range; the error distinguishes the `ParseIntError`
kinds (empty, invalid digit, positive/negative overflow). -/
def parseI32 (s : String) : Except DeError Int :=
  match s.data with
  | [] => .error .intEmpty
  | c :: rest =>
    if c = '+' then
      match rest with
      | [] => .error .intEmpty
      | l => parseI32Pos l 0
    else if c = '-' then
      match rest with
      | [] => .error .intEmpty
      | l => parseI32Neg l 0
    else parseI32Pos (c :: rest) 0

/-- Modelled from the spec: the encoder's decimal-string rendering of an
integer (§4.3), a minus sign for negatives followed by the decimal digits. -/
def intDecString (n : Int) : String :=
  if n < 0 then String.mk ('-' :: natDigits n.natAbs) else String.mk (natDigits n.natAbs)

theorem parseI32Pos_append (xs ys : List Char) (acc : Int) :
    parseI32Pos (xs ++ ys) acc =
      match parseI32Pos xs acc with
      | .ok a => parseI32Pos ys a
      | .error e => .error e := by
  induction xs generalizing acc with
  | nil => simp [parseI32Pos]
  | cons c cs ih =>
    simp only [List.cons_append, parseI32Pos]
    cases charDigit c with
    | some d =>
      by_cases hov : i32Max < acc * 10 + d
      · simp [hov]
      · simp [hov, ih]
    | none => rfl

theorem parseI32Neg_append (xs ys : List Char) (acc : Int) :
    parseI32Neg (xs ++ ys) acc =
      match parseI32Neg xs acc with
      | .ok a => parseI32Neg ys a
      | .error e => .error e := by
  induction xs generalizing acc with
  | nil => simp [parseI32Neg]
  | cons c cs ih =>
    simp only [List.cons_append, parseI32Neg]
    cases charDigit c with
    | some d =>
      by_cases hov : acc * 10 - d < i32Min
      · simp [hov]
      · simp [hov, ih]
    | none => rfl

theorem parseI32Pos_natDigits (m : Nat) :
    ∀ acc : Int, 0 ≤ acc → acc * 10 ^ (natDigits m).length + m ≤ i32Max →
    parseI32Pos (natDigits m) acc = .ok (acc * 10 ^ (natDigits m).length + m) := by
  induction m using Nat.strong_induction_on with
  | _ m ih =>
    intro acc hnn hbound
    by_cases h : m < 10
    · rw [natDigits, if_pos h] at hbound ⊢
      simp only [List.length_cons, List.length_nil, zero_add, pow_one] at hbound ⊢
      simp only [parseI32Pos, charDigit_digitChar m h]
      rw [if_neg (by omega)]
    · rw [natDigits, if_neg h] at hbound ⊢
      rw [parseI32Pos_append]
      have hlen : (natDigits (m / 10) ++ [digitChar (m % 10)]).length
          = (natDigits (m / 10)).length + 1 := by simp
      rw [hlen, pow_succ] at hbound ⊢
      have hk0 : (0 : Int) < 10 ^ (natDigits (m / 10)).length := by positivity
      have hB : (0 : Int) ≤ acc * 10 ^ (natDigits (m / 10)).length :=
        mul_nonneg hnn (le_of_lt hk0)
      have hb2 : acc * 10 ^ (natDigits (m / 10)).length * 10 + (m : Int) ≤ i32Max := by
        have : acc * (10 ^ (natDigits (m / 10)).length * 10)
            = acc * 10 ^ (natDigits (m / 10)).length * 10 := by ring
        rw [this] at hbound
        exact hbound
      have hsub : acc * 10 ^ (natDigits (m / 10)).length + ((m / 10 : Nat) : Int)
          ≤ i32Max := by
        generalize acc * 10 ^ (natDigits (m / 10)).length = B at hB hb2 ⊢
        omega
      rw [ih (m / 10) (by omega) acc hnn hsub]
      simp only [parseI32Pos, charDigit_digitChar (m % 10) (by omega)]
      have hval : (acc * 10 ^ (natDigits (m / 10)).length + ((m / 10 : Nat) : Int)) * 10
          + ((m % 10 : Nat) : Int)
          = acc * (10 ^ (natDigits (m / 10)).length * 10) + (m : Int) := by
        have hmd : ((m / 10 : Nat) : Int) * 10 + ((m % 10 : Nat) : Int) = (m : Int) := by
          push_cast
          omega
        ring_nf
        ring_nf at hmd
        generalize acc * 10 ^ (natDigits (m / 10)).length = B
        omega
      rw [if_neg (by rw [hval]; exact not_lt.mpr hbound)]
      rw [hval]

theorem parseI32Neg_natDigits (m : Nat) :
    ∀ acc : Int, acc ≤ 0 → i32Min ≤ acc * 10 ^ (natDigits m).length - m →
    parseI32Neg (natDigits m) acc = .ok (acc * 10 ^ (natDigits m).length - m) := by
  induction m using Nat.strong_induction_on with
  | _ m ih =>
    intro acc hnp hbound
    by_cases h : m < 10
    · rw [natDigits, if_pos h] at hbound ⊢
      simp only [List.length_cons, List.length_nil, zero_add, pow_one] at hbound ⊢
      simp only [parseI32Neg, charDigit_digitChar m h]
      rw [if_neg (by omega)]
    · rw [natDigits, if_neg h] at hbound ⊢
      rw [parseI32Neg_append]
      have hlen : (natDigits (m / 10) ++ [digitChar (m % 10)]).length
          = (natDigits (m / 10)).length + 1 := by simp
      rw [hlen, pow_succ] at hbound ⊢
      have hk0 : (0 : Int) < 10 ^ (natDigits (m / 10)).length := by positivity
      have hB : acc * 10 ^ (natDigits (m / 10)).length ≤ 0 := by
        have := mul_le_mul_of_nonneg_right hnp (le_of_lt hk0)
        simpa using this
      have hb2 : i32Min ≤ acc * 10 ^ (natDigits (m / 10)).length * 10 - (m : Int) := by
        have : acc * (10 ^ (natDigits (m / 10)).length * 10)
            = acc * 10 ^ (natDigits (m / 10)).length * 10 := by ring
        rw [this] at hbound
        exact hbound
      have hsub : i32Min ≤ acc * 10 ^ (natDigits (m / 10)).length - ((m / 10 : Nat) : Int) := by
        generalize acc * 10 ^ (natDigits (m / 10)).length = B at hB hb2 ⊢
        omega
      rw [ih (m / 10) (by omega) acc hnp hsub]
      simp only [parseI32Neg, charDigit_digitChar (m % 10) (by omega)]
      have hval : (acc * 10 ^ (natDigits (m / 10)).length - ((m / 10 : Nat) : Int)) * 10
          - ((m % 10 : Nat) : Int)
          = acc * (10 ^ (natDigits (m / 10)).length * 10) - (m : Int) := by
        have hmd : ((m / 10 : Nat) : Int) * 10 + ((m % 10 : Nat) : Int) = (m : Int) := by
          push_cast
          omega
        ring_nf
        ring_nf at hmd
        generalize acc * 10 ^ (natDigits (m / 10)).length = B
        omega
      rw [if_neg (by rw [hval]; exact not_lt.mpr hbound)]
      rw [hval]

theorem parseI32_intDecString (n : Int) (h1 : i32Min ≤ n) (h2 : n ≤ i32Max) :
    parseI32 (intDecString n) = .ok n := by
  obtain ⟨d, rest, hd, heq⟩ := natDigits_head n.natAbs
  obtain ⟨hds1, hds2⟩ := digitChar_not_sign d hd
  rw [intDecString]
  split
  · next hneg =>
    rw [parseI32]
    dsimp only
    rw [if_neg (by decide), if_pos rfl, heq]
    dsimp only
    rw [← heq]
    have habs : ((n.natAbs : Nat) : Int) = -n := by omega
    have hbound : i32Min ≤ (0 : Int) * 10 ^ (natDigits n.natAbs).length - n.natAbs := by
      rw [habs]
      omega
    rw [parseI32Neg_natDigits n.natAbs 0 le_rfl hbound]
    congr 1
    rw [habs]
    ring
  · next hpos =>
    rw [parseI32]
    dsimp only
    rw [heq]
    dsimp only
    rw [if_neg hds2, if_neg hds1, ← heq]
    have habs : ((n.natAbs : Nat) : Int) = n := by omega
    have hbound : (0 : Int) * 10 ^ (natDigits n.natAbs).length + n.natAbs ≤ i32Max := by
      rw [habs]
      omega
    rw [parseI32Pos_natDigits n.natAbs 0 le_rfl hbound]
    congr 1
    rw [habs]
    ring

/-- Two-digit zero-padded rendering. -/
def pad2 (n : Nat) : List Char := [digitChar (n / 10 % 10), digitChar (n % 10)]

/-- Four-digit zero-padded rendering. -/
def pad4 (n : Nat) : List Char :=
  [digitChar (n / 1000 % 10), digitChar (n / 100 % 10), digitChar (n / 10 % 10),
   digitChar (n % 10)]

/-- Nine-digit zero-padded rendering (nanosecond field). -/
def pad9 (n : Nat) : List Char :=
  [digitChar (n / 100000000 % 10), digitChar (n / 10000000 % 10),
   digitChar (n / 1000000 % 10), digitChar (n / 100000 % 10),
   digitChar (n / 10000 % 10), digitChar (n / 1000 % 10),
   digitChar (n / 100 % 10), digitChar (n / 10 % 10), digitChar (n % 10)]

/-- Combines two digit characters. -/
def digits2 (a b : Char) : Option Nat :=
  match charDigit a, charDigit b with
  | some x, some y => some (10 * x + y)
  | _, _ => none

/-- Combines four digit characters. -/
def digits4 (a b c d : Char) : Option Nat :=
  match charDigit a, charDigit b, charDigit c, charDigit d with
  | some x, some y, some z, some w => some (1000 * x + 100 * y + 10 * z + w)
  | _, _, _, _ => none

/-- Gregorian leap year. -/
def isLeap (y : Nat) : Bool :=
  y % 4 = 0 && (y % 100 ≠ 0 || y % 400 = 0)

/-- Days in a month of the Gregorian calendar. -/
def daysInMonth (y mo : Nat) : Nat :=
  if mo = 2 then (if isLeap y then 29 else 28)
  else if mo = 4 ∨ mo = 6 ∨ mo = 9 ∨ mo = 11 then 30 else 31

/-- Calendar validity of a date, as chrono enforces when parsing. -/
def validDate (y mo d : Nat) : Bool :=
  decide (1 ≤ mo ∧ mo ≤ 12 ∧ 1 ≤ d) && decide (d ≤ daysInMonth y mo)

/-- Validity of a timestamp's components: a chrono `DateTime<Utc>` within the
four-digit-year RFC3339 range (leap seconds, which chrono smuggles through
nanoseconds above 10^9, are left out of scope). -/
def validTs (t : Ts) : Bool :=
  decide (t.year ≤ 9999) && validDate t.year t.month t.day &&
    decide (t.hour ≤ 23 ∧ t.minute ≤ 59 ∧ t.second ≤ 59 ∧ t.nanos ≤ 999999999)

/-- Modelled from the spec: the encoder's RFC3339 rendering (§4.3),
nanosecond precision with trailing Z. -/
def encodeTsChars (t : Ts) : List Char :=
  pad4 t.year ++ '-' :: pad2 t.month ++ '-' :: pad2 t.day ++ 'T' :: pad2 t.hour ++
    ':' :: pad2 t.minute ++ ':' :: pad2 t.second ++ '.' :: pad9 t.nanos ++ ['Z']

/-- RFC3339 text of a timestamp instant. -/
def encodeTs (t : Ts) : String := String.mk (encodeTsChars t)

/-- Splits the longest leading run of decimal digits off a character list. -/
def takeDigits : List Char → List Nat × List Char
  | [] => ([], [])
  | c :: cs =>
    match charDigit c with
    | some d =>
      let r := takeDigits cs
      (d :: r.1, r.2)
    | none => ([], c :: cs)

/-- The value of a digit sequence, most significant first. -/
def digitsVal (ds : List Nat) : Nat :=
  ds.foldl (fun acc d => 10 * acc + d) 0

/-- A UTC zone designator: `Z` or a zero offset. -/
def zoneOk : List Char → Bool
  | ['Z'] => true
  | ['+', '0', '0', ':', '0', '0'] => true
  | ['-', '0', '0', ':', '0', '0'] => true
  | _ => false

/-- The optional fractional-seconds part followed by a UTC zone designator,
yielding nanoseconds. -/
def parseFrac : List Char → Option Nat
  | '.' :: rest =>
    let r := takeDigits rest
    if r.1.length = 0 ∨ 9 < r.1.length then none
    else if zoneOk r.2 then some (digitsVal r.1 * 10 ^ (9 - r.1.length)) else none
  | rest => if zoneOk rest then some 0 else none

/-- From chrono's RFC3339 parsing of `timestampValue` (api.rs:78-79):
date, `T`, time, an optional fraction of up to nine digits, and a UTC zone
designator, with calendar validation. Chrono additionally accepts lowercase
`t`/`z`, fractions beyond nine digits, and nonzero offsets (normalized to
UTC); those forms are not produced by the encoder and no claim quantifies
over timestamp wire text, so they are outside this model. -/
def decodeTsChars : List Char → Option Ts
  | y1 :: y2 :: y3 :: y4 :: c1 :: mo1 :: mo2 :: c2 :: d1 :: d2 :: c3 :: h1 :: h2 ::
      c4 :: mi1 :: mi2 :: c5 :: s1 :: s2 :: rest =>
    if c1 = '-' ∧ c2 = '-' ∧ c3 = 'T' ∧ c4 = ':' ∧ c5 = ':' then
      match digits4 y1 y2 y3 y4, digits2 mo1 mo2, digits2 d1 d2, digits2 h1 h2,
          digits2 mi1 mi2, digits2 s1 s2 with
      | some year, some month, some day, some hour, some minute, some second =>
        match parseFrac rest with
        | some nanos =>
          if validDate year month day ∧ hour ≤ 23 ∧ minute ≤ 59 ∧ second ≤ 59 then
            some ⟨year, month, day, hour, minute, second, nanos⟩
          else none
        | none => none
      | _, _, _, _, _, _ => none
    else none
  | _ => none

/-- Parses RFC3339 text into a timestamp instant. -/
def decodeTs (s : String) : Option Ts := decodeTsChars s.data

theorem digits4_pad (n : Nat) (h : n < 10000) :
    digits4 (digitChar (n / 1000 % 10)) (digitChar (n / 100 % 10))
      (digitChar (n / 10 % 10)) (digitChar (n % 10)) = some n := by
  simp only [digits4, charDigit_digitChar _ (Nat.mod_lt _ (by omega))]
  congr 1
  omega

theorem digits2_pad (n : Nat) (h : n < 100) :
    digits2 (digitChar (n / 10 % 10)) (digitChar (n % 10)) = some n := by
  simp only [digits2, charDigit_digitChar _ (Nat.mod_lt _ (by omega))]
  congr 1
  omega

theorem takeDigits_digit (d : Nat) (h : d < 10) (cs : List Char) :
    takeDigits (digitChar d :: cs) = (d :: (takeDigits cs).1, (takeDigits cs).2) := by
  simp [takeDigits, charDigit_digitChar d h]

theorem takeDigits_pad9 (n : Nat) :
    takeDigits (pad9 n ++ ['Z']) =
      ([n / 100000000 % 10, n / 10000000 % 10, n / 1000000 % 10, n / 100000 % 10,
        n / 10000 % 10, n / 1000 % 10, n / 100 % 10, n / 10 % 10, n % 10], ['Z']) := by
  simp only [pad9, List.cons_append, List.nil_append]
  rw [takeDigits_digit _ (Nat.mod_lt _ (by omega)), takeDigits_digit _ (Nat.mod_lt _ (by omega)),
    takeDigits_digit _ (Nat.mod_lt _ (by omega)), takeDigits_digit _ (Nat.mod_lt _ (by omega)),
    takeDigits_digit _ (Nat.mod_lt _ (by omega)), takeDigits_digit _ (Nat.mod_lt _ (by omega)),
    takeDigits_digit _ (Nat.mod_lt _ (by omega)), takeDigits_digit _ (Nat.mod_lt _ (by omega)),
    takeDigits_digit _ (Nat.mod_lt _ (by omega))]
  rfl

theorem parseFrac_pad9 (n : Nat) (h : n < 1000000000) :
    parseFrac ('.' :: pad9 n ++ ['Z']) = some n := by
  show parseFrac ('.' :: (pad9 n ++ ['Z'])) = some n
  rw [parseFrac, takeDigits_pad9]
  norm_num
  constructor
  · decide
  · simp only [digitsVal, List.foldl]
    omega

theorem decodeTs_encodeTs (t : Ts) (h : validTs t = true) :
    decodeTs (encodeTs t) = some t := by
  rw [validTs, Bool.and_eq_true, Bool.and_eq_true] at h
  obtain ⟨⟨hy, hdate⟩, htime⟩ := h
  rw [decide_eq_true_eq] at hy htime
  obtain ⟨hh, hmi, hs, hn⟩ := htime
  rw [decodeTs, encodeTs]
  show decodeTsChars (encodeTsChars t) = some t
  rw [encodeTsChars]
  simp only [pad4, pad2, List.cons_append, List.nil_append, List.append_assoc]
  rw [decodeTsChars]
  rw [if_pos ⟨rfl, rfl, rfl, rfl, rfl⟩]
  have hmo : t.month < 100 := by
    rw [validDate, Bool.and_eq_true, decide_eq_true_eq, decide_eq_true_eq] at hdate
    omega
  have hd : t.day < 100 := by
    rw [validDate, Bool.and_eq_true, decide_eq_true_eq, decide_eq_true_eq] at hdate
    have h31 : daysInMonth t.year t.month ≤ 31 := by
      rw [daysInMonth]
      split
      · split <;> omega
      · split <;> omega
    omega
  rw [digits4_pad t.year (by omega), digits2_pad t.month hmo, digits2_pad t.day hd,
    digits2_pad t.hour (by omega), digits2_pad t.minute (by omega),
    digits2_pad t.second (by omega)]
  dsimp only
  rw [show ('.' :: (pad9 t.nanos ++ ['Z'])) = ('.' :: pad9 t.nanos ++ ['Z']) from rfl,
    parseFrac_pad9 t.nanos (by omega)]
  dsimp only
  rw [if_pos ⟨hdate, hh, hmi, hs⟩]

/-- The eight wire type-tag keys, the serde rename names of the
`FirestoreType` variants (api.rs:63-82). -/
def tagKeys : List String :=
  ["integerValue", "booleanValue", "stringValue", "nullValue", "geoPointValue",
   "timestampValue", "arrayValue", "mapValue"]

/-- From api.rs:65-67 via `serde_aux::deserialize_number_from_string` into
i32: a JSON string is parsed with `i32::from_str`; a JSON integer literal in
i32 range is taken as is; any other payload fails the untagged
string-or-number enum (including out-of-range or float-formatted numbers,
for which both untagged variants fail). -/
def decodeIntegerPayload : Json → Except DeError FirestoreType
  | .str s =>
    match parseI32 s with
    | .ok n => .ok (.Integer n)
    | .error e => .error e
  | .num (.intL n) =>
    if i32Min ≤ n ∧ n ≤ i32Max then .ok (.Integer n) else .error .untaggedMismatch
  | _ => .error .untaggedMismatch

/-- From api.rs:68-69: `booleanValue` requires a JSON boolean. -/
def decodeBooleanPayload : Json → Except DeError FirestoreType
  | .bool b => .ok (.Boolean b)
  | _ => .error (.invalidType "boolean")

/-- From api.rs:70-71: `stringValue` requires a JSON string. -/
def decodeStringPayload : Json → Except DeError FirestoreType
  | .str s => .ok (.String s)
  | _ => .error (.invalidType "string")

/-- An i32 struct field (GeoPoint's latitude/longitude, api.rs:54-58): a
JSON integer literal in range; a float-formatted number is an invalid-type
error, an out-of-range integer an invalid-value error. -/
def decodeI32Number : Json → Except DeError Int
  | .num (.intL n) =>
    if i32Min ≤ n ∧ n ≤ i32Max then .ok n else .error (.invalidValue "i32")
  | _ => .error (.invalidType "i32")

/-- The derived struct visitor for `GeoPoint` (api.rs:54-58): entries are
scanned in text order; known fields are decoded when met, a repeated known
field is a duplicate-field error, unknown fields are ignored, and a missing
field is reported in declaration order. -/
def decodeGeoEntries : List (String × Json) → Option Int → Option Int →
    Except DeError FirestoreType
  | [], la?, lo? =>
    match la? with
    | none => .error (.missingField "latitude")
    | some la =>
      match lo? with
      | none => .error (.missingField "longitude")
      | some lo => .ok (.GeoLocation la lo)
  | (k, v) :: rest, la?, lo? =>
    if k = "latitude" then
      match la? with
      | some _ => .error (.duplicateField "latitude")
      | none =>
        match decodeI32Number v with
        | .error e => .error e
        | .ok n => decodeGeoEntries rest (some n) lo?
    else if k = "longitude" then
      match lo? with
      | some _ => .error (.duplicateField "longitude")
      | none =>
        match decodeI32Number v with
        | .error e => .error e
        | .ok n => decodeGeoEntries rest la? (some n)
    else decodeGeoEntries rest la? lo?

/-- From api.rs:72-73: `geoPointValue` decodes the `GeoPoint` struct. -/
def decodeGeoPayload : Json → Except DeError FirestoreType
  | .obj entries => decodeGeoEntries entries none none
  | _ => .error (.invalidType "struct GeoPoint")

/-- From api.rs:78-79: `timestampValue` requires a JSON string parsed by
chrono as RFC3339. -/
def decodeTimestampPayload : Json → Except DeError FirestoreType
  | .str s =>
    match decodeTs s with
    | some t => .ok (.Timestamp t)
    | none => .error .timestampParse
  | _ => .error (.invalidType "string")

/-- Inserts a binding into a field map, replacing an existing binding for the
same name and appending otherwise — `HashMap::insert` on an
insertion-ordered association list. -/
def insertFM : List (String × FirestoreType) → String → FirestoreType →
    List (String × FirestoreType)
  | [], k, v => [(k, v)]
  | (a, b) :: rest, k, v =>
    if a = k then (k, v) :: rest else (a, b) :: insertFM rest k v

/-- The unit variant's payload (`nullValue`, api.rs:80-81): serde
deserializes `()`, which accepts only JSON null. -/
def decodeNullPayload : Json → Except DeError FirestoreType
  | .null => .ok .Null
  | _ => .error (.invalidType "unit")

mutual

/-- From api.rs:63-82: the serde-derived decode of `FirestoreType`, an
externally tagged enum under serde_json's streaming deserializer. A bare
string selects a variant (only the unit variant `nullValue` then succeeds);
an object must hold exactly one entry: the decoder dispatches on the first
key — an unrecognized first key is an unknown-variant error — decodes that
variant's payload, and then rejects any further entry; an empty object and
non-string non-object inputs are errors. -/
def decode_field : Json → Except DeError FirestoreType
  | .str s =>
    if s = "nullValue" then .ok .Null
    else if tagKeys.contains s then .error (.invalidType "newtype variant")
    else .error (.unknownVariant s)
  | .obj [] => .error .expectedVariant
  | .obj ((k, p) :: rest) =>
    match variantDecode k p with
    | none => .error (.unknownVariant k)
    | some (.error e) => .error e
    | some (.ok v) => if rest.isEmpty then .ok v else .error .expectedMapEnd
  | _ => .error (.invalidType "string or map")
termination_by j => (sizeOf j, 2)

/-- Payload rule of the variant selected by a tag key; `none` when the key
is not a variant name. -/
def variantDecode (k : String) (p : Json) : Option (Except DeError FirestoreType) :=
  if k = "integerValue" then some (decodeIntegerPayload p)
  else if k = "booleanValue" then some (decodeBooleanPayload p)
  else if k = "stringValue" then some (decodeStringPayload p)
  else if k = "nullValue" then some (decodeNullPayload p)
  else if k = "geoPointValue" then some (decodeGeoPayload p)
  else if k = "timestampValue" then some (decodeTimestampPayload p)
  else if k = "arrayValue" then some (decodeArrayPayload p)
  else if k = "mapValue" then some (decodeMapPayload p)
  else none
termination_by (sizeOf p, 1)

/-- From api.rs:74-75: `arrayValue` decodes the `Array` struct. -/
def decodeArrayPayload : Json → Except DeError FirestoreType
  | .obj pe => decodeArrayEntries pe none
  | _ => .error (.invalidType "struct Array")
termination_by p => (sizeOf p, 0)

/-- From api.rs:76-77: `mapValue` decodes the `Map` struct. -/
def decodeMapPayload : Json → Except DeError FirestoreType
  | .obj pe => decodeMapEntries pe none
  | _ => .error (.invalidType "struct Map")
termination_by p => (sizeOf p, 0)

/-- The derived struct visitor for `Array` (api.rs:41-44): the single known
field `values` holds a JSON array of recursively decoded elements; unknown
fields are ignored, a repeated `values` is a duplicate-field error, an
absent one a missing-field error. -/
def decodeArrayEntries : List (String × Json) → Option (List FirestoreType) →
    Except DeError FirestoreType
  | [], none => .error (.missingField "values")
  | [], some vs => .ok (.Array vs)
  | (k, v) :: rest, acc =>
    if k = "values" then
      match acc with
      | some _ => .error (.duplicateField "values")
      | none =>
        match v with
        | .arr elems =>
          match decodeElems elems with
          | .error e => .error e
          | .ok vs => decodeArrayEntries rest (some vs)
        | _ => .error (.invalidType "sequence")
    else decodeArrayEntries rest acc
termination_by l _ => (sizeOf l, 0)

/-- The derived struct visitor for `Map` (api.rs:36-39): the single known
field `fields` holds a JSON object decoded as a `FirestoreFields` map. -/
def decodeMapEntries : List (String × Json) → Option (List (String × FirestoreType)) →
    Except DeError FirestoreType
  | [], none => .error (.missingField "fields")
  | [], some m => .ok (.Map m)
  | (k, v) :: rest, acc =>
    if k = "fields" then
      match acc with
      | some _ => .error (.duplicateField "fields")
      | none =>
        match v with
        | .obj fe =>
          match decodeEntriesAux fe [] with
          | .error e => .error e
          | .ok m => decodeMapEntries rest (some m)
        | _ => .error (.invalidType "map")
    else decodeMapEntries rest acc
termination_by l _ => (sizeOf l, 0)

/-- `Vec<FirestoreType>` deserialization: elements in order, first failure
propagates. -/
def decodeElems : List Json → Except DeError (List FirestoreType)
  | [] => .ok []
  | j :: js =>
    match decode_field j with
    | .error e => .error e
    | .ok v =>
      match decodeElems js with
      | .error e => .error e
      | .ok vs => .ok (v :: vs)
termination_by l => (sizeOf l, 0)

/-- `HashMap<String, FirestoreType>` deserialization (`FirestoreFields`,
api.rs:33-34): entries in text order, each value decoded by `decode_field`,
inserted with overwrite so a repeated name keeps its last occurrence; the
first failure aborts. -/
def decodeEntriesAux : List (String × Json) → List (String × FirestoreType) →
    Except DeError (List (String × FirestoreType))
  | [], acc => .ok acc
  | (k, j) :: rest, acc =>
    match decode_field j with
    | .error e => .error e
    | .ok v => decodeEntriesAux rest (insertFM acc k v)
termination_by l _ => (sizeOf l, 0)

end

/-- From api.rs:33-34: `decode_fields` — `FirestoreFields` deserialization
requires a JSON object and decodes every entry's value, failing fast. -/
def decode_fields : Json → Except DeError (List (String × FirestoreType))
  | .obj entries => decodeEntriesAux entries []
  | _ => .error (.invalidType "map")

mutual

/-- Modelled from the spec: `encode_field` (§4.3) applied to the program's
value model — no `Serialize` impl exists in src/. Every variant has exactly
one wire form; the integer travels as a decimal string, composites carry
explicit `values`/`fields` keys. -/
def encode_field : FirestoreType → Json
  | .Integer n => .obj [("integerValue", .str (intDecString n))]
  | .Boolean b => .obj [("booleanValue", .bool b)]
  | .String s => .obj [("stringValue", .str s)]
  | .Null => .obj [("nullValue", .null)]
  | .GeoLocation la lo =>
    .obj [("geoPointValue",
      .obj [("latitude", .num (.intL la)), ("longitude", .num (.intL lo))])]
  | .Timestamp t => .obj [("timestampValue", .str (encodeTs t))]
  | .Array items => .obj [("arrayValue", .obj [("values", .arr (encodeList items))])]
  | .Map m => .obj [("mapValue", .obj [("fields", .obj (encodeEntries m))])]

/-- Encodes a list of values elementwise. -/
def encodeList : List FirestoreType → List Json
  | [] => []
  | v :: vs => encode_field v :: encodeList vs

/-- Encodes field-map entries pointwise. -/
def encodeEntries : List (String × FirestoreType) → List (String × Json)
  | [] => []
  | (k, v) :: rest => (k, encode_field v) :: encodeEntries rest

end

/-- Modelled from the spec: `encode_fields` (§4.3) — the wire object of a
field map. -/
def encode_fields (m : List (String × FirestoreType)) : Json := .obj (encodeEntries m)

/-- Duplicate-freedom of a key list. -/
def nodupKeys : List String → Bool
  | [] => true
  | k :: rest => !(rest.contains k) && nodupKeys rest

mutual

/-- Constructibility of a value in the program: `Integer` and the
`GeoLocation` coordinates within i32 (their Rust types), timestamps that a
chrono `DateTime<Utc>` in the four-digit-year range can hold, and `HashMap`
field maps with unique keys. -/
def WF : FirestoreType → Bool
  | .Integer n => decide (i32Min ≤ n ∧ n ≤ i32Max)
  | .Boolean _ => true
  | .String _ => true
  | .GeoLocation la lo => decide (i32Min ≤ la ∧ la ≤ i32Max ∧ i32Min ≤ lo ∧ lo ≤ i32Max)
  | .Timestamp t => validTs t
  | .Null => true
  | .Array items => WFList items
  | .Map m => nodupKeys (m.map Prod.fst) && WFEntries m

/-- Constructibility of every element of a list of values. -/
def WFList : List FirestoreType → Bool
  | [] => true
  | v :: vs => WF v && WFList vs

/-- Constructibility of every value of a field map. -/
def WFEntries : List (String × FirestoreType) → Bool
  | [] => true
  | (_, v) :: rest => WF v && WFEntries rest

end

theorem variantDecode_integer (p : Json) :
    variantDecode "integerValue" p = some (decodeIntegerPayload p) := by
  simp [variantDecode]

theorem variantDecode_boolean (p : Json) :
    variantDecode "booleanValue" p = some (decodeBooleanPayload p) := by
  simp [variantDecode]

theorem variantDecode_string (p : Json) :
    variantDecode "stringValue" p = some (decodeStringPayload p) := by
  simp [variantDecode]

theorem variantDecode_null (p : Json) :
    variantDecode "nullValue" p = some (decodeNullPayload p) := by
  simp [variantDecode]

theorem variantDecode_geo (p : Json) :
    variantDecode "geoPointValue" p = some (decodeGeoPayload p) := by
  simp [variantDecode]

theorem variantDecode_timestamp (p : Json) :
    variantDecode "timestampValue" p = some (decodeTimestampPayload p) := by
  simp [variantDecode]

theorem variantDecode_array (p : Json) :
    variantDecode "arrayValue" p = some (decodeArrayPayload p) := by
  simp [variantDecode]

theorem variantDecode_map (p : Json) :
    variantDecode "mapValue" p = some (decodeMapPayload p) := by
  simp [variantDecode]

theorem variantDecode_unknown (k : String) (p : Json) (h : ∀ t ∈ tagKeys, k ≠ t) :
    variantDecode k p = none := by
  have h1 := h "integerValue" (by decide)
  have h2 := h "booleanValue" (by decide)
  have h3 := h "stringValue" (by decide)
  have h4 := h "nullValue" (by decide)
  have h5 := h "geoPointValue" (by decide)
  have h6 := h "timestampValue" (by decide)
  have h7 := h "arrayValue" (by decide)
  have h8 := h "mapValue" (by decide)
  rw [variantDecode, if_neg h1, if_neg h2, if_neg h3, if_neg h4, if_neg h5, if_neg h6,
    if_neg h7, if_neg h8]

theorem decode_single (k : String) (p : Json) (r : Except DeError FirestoreType)
    (h : variantDecode k p = some r) : decode_field (.obj [(k, p)]) = r := by
  simp only [decode_field, h]
  cases r with
  | error e => rfl
  | ok v => simp

theorem decode_cons2_not_ok (k : String) (p : Json) (e2 : String × Json)
    (rest : List (String × Json)) (v : FirestoreType) :
    decode_field (.obj ((k, p) :: e2 :: rest)) ≠ .ok v := by
  simp only [decode_field]
  cases hvd : variantDecode k p with
  | none => simp
  | some r =>
    cases r with
    | error e => simp
    | ok w => simp [List.isEmpty]

theorem decode_obj_cons_first_ok (k : String) (p : Json) (e2 : String × Json)
    (rest : List (String × Json)) (v : FirestoreType)
    (h : variantDecode k p = some (.ok v)) :
    decode_field (.obj ((k, p) :: e2 :: rest)) = .error .expectedMapEnd := by
  simp only [decode_field, h]
  simp [List.isEmpty]

theorem decode_obj_cons_first_error (k : String) (p : Json)
    (rest : List (String × Json)) (e : DeError)
    (h : variantDecode k p = some (.error e)) :
    decode_field (.obj ((k, p) :: rest)) = .error e := by
  simp only [decode_field, h]

theorem decode_obj_cons_unknown (k : String) (p : Json)
    (rest : List (String × Json)) (h : variantDecode k p = none) :
    decode_field (.obj ((k, p) :: rest)) = .error (.unknownVariant k) := by
  simp only [decode_field, h]

/-- The wire value stored under the last occurrence of a field name in a wire
object (association list). -/
def lookupLast (l : List (String × Json)) (k : String) : Option Json :=
  l.reverse.lookup k

theorem lookup_append {β : Type} (a : String) (l1 l2 : List (String × β)) :
    (l1 ++ l2).lookup a =
      match l1.lookup a with
      | some v => some v
      | none => l2.lookup a := by
  induction l1 with
  | nil => simp [List.lookup]
  | cons e rest ih =>
    obtain ⟨k, v⟩ := e
    simp only [List.cons_append, List.lookup]
    cases h : (a == k) with
    | true => rfl
    | false => exact ih

theorem lookup_none_iff {β : Type} (a : String) (l : List (String × β)) :
    l.lookup a = none ↔ a ∉ l.map Prod.fst := by
  induction l with
  | nil => simp [List.lookup]
  | cons e rest ih =>
    obtain ⟨k, v⟩ := e
    by_cases h : a = k
    · subst h
      simp [List.lookup]
    · have hb : (a == k) = false := beq_eq_false_iff_ne.mpr h
      simp [List.lookup, hb, h, ih]

theorem lookupLast_none_iff (a : String) (l : List (String × Json)) :
    lookupLast l a = none ↔ l.lookup a = none := by
  rw [lookupLast, lookup_none_iff, lookup_none_iff, List.map_reverse, List.mem_reverse]

theorem insertFM_lookup_self (acc : List (String × FirestoreType)) (k : String)
    (v : FirestoreType) : (insertFM acc k v).lookup k = some v := by
  induction acc with
  | nil => simp [insertFM, List.lookup]
  | cons e rest ih =>
    obtain ⟨a, b⟩ := e
    rw [insertFM]
    split
    · simp [List.lookup]
    · next hne =>
      rw [List.lookup]
      have : (k == a) = false := by
        simp only [beq_eq_false_iff_ne, ne_eq]
        exact fun hk => hne (hk ▸ rfl)
      rw [this]
      exact ih

theorem insertFM_lookup_other (acc : List (String × FirestoreType)) (k a : String)
    (v : FirestoreType) (h : a ≠ k) : (insertFM acc k v).lookup a = acc.lookup a := by
  have hak : (a == k) = false := beq_eq_false_iff_ne.mpr h
  induction acc with
  | nil => simp [insertFM, List.lookup, hak]
  | cons e rest ih =>
    obtain ⟨b, w⟩ := e
    rw [insertFM]
    split
    · next heq =>
      have hab : (a == b) = false := beq_eq_false_iff_ne.mpr (by rw [heq]; exact h)
      simp [List.lookup, hak, hab]
    · rw [List.lookup, List.lookup]
      cases hb : (a == b) with
      | true => rfl
      | false => exact ih

theorem insertFM_fresh (acc : List (String × FirestoreType)) (k : String)
    (v : FirestoreType) (h : acc.lookup k = none) : insertFM acc k v = acc ++ [(k, v)] := by
  induction acc with
  | nil => simp [insertFM]
  | cons e rest ih =>
    obtain ⟨a, b⟩ := e
    rw [List.lookup] at h
    rw [insertFM]
    split
    · next heq =>
      subst heq
      simp at h
    · next hne =>
      cases hk : (k == a) with
      | true => simp [hk] at h
      | false =>
        rw [hk] at h
        simp only [List.cons_append, List.cons.injEq, true_and]
        exact ih h

theorem decodeEntriesAux_all_ok (l : List (String × Json)) :
    ∀ acc, (∀ e ∈ l, ∃ v, decode_field e.2 = .ok v) →
    ∃ m, decodeEntriesAux l acc = .ok m ∧
      ∀ a, (m.lookup a).isSome = ((acc.lookup a).isSome || (l.lookup a).isSome) := by
  induction l with
  | nil =>
    intro acc _
    exact ⟨acc, by simp [decodeEntriesAux], by simp [List.lookup]⟩
  | cons e rest ih =>
    intro acc hall
    obtain ⟨k, j⟩ := e
    obtain ⟨v, hv⟩ := hall (k, j) (by simp)
    obtain ⟨m, hm, hkeys⟩ := ih (insertFM acc k v) (fun x hx => hall x (by simp [hx]))
    refine ⟨m, ?_, ?_⟩
    · simp [decodeEntriesAux, hv, hm]
    · intro a
      rw [hkeys a, List.lookup]
      cases ha : (a == k) with
      | true =>
        simp only [beq_iff_eq] at ha
        subst ha
        simp [insertFM_lookup_self]
      | false =>
        rw [beq_eq_false_iff_ne] at ha
        rw [insertFM_lookup_other acc k a v ha]

theorem decodeEntriesAux_first_error (l1 : List (String × Json)) :
    ∀ acc k j l2 e, (∀ x ∈ l1, ∃ v, decode_field x.2 = .ok v) →
    decode_field j = .error e →
    decodeEntriesAux (l1 ++ (k, j) :: l2) acc = .error e := by
  induction l1 with
  | nil =>
    intro acc k j l2 e _ herr
    simp [decodeEntriesAux, herr]
  | cons x rest ih =>
    intro acc k j l2 e hall herr
    obtain ⟨a, b⟩ := x
    obtain ⟨v, hv⟩ := hall (a, b) (by simp)
    simp only [List.cons_append]
    rw [decodeEntriesAux, hv]
    exact ih (insertFM acc a v) k j l2 e (fun x hx => hall x (by simp [hx])) herr

theorem decodeEntriesAux_lookup_absent (l : List (String × Json)) :
    ∀ acc m a, decodeEntriesAux l acc = .ok m → l.lookup a = none →
    m.lookup a = acc.lookup a := by
  induction l with
  | nil =>
    intro acc m a hok _
    rw [decodeEntriesAux] at hok
    cases hok
    rfl
  | cons e rest ih =>
    intro acc m a hok habs
    obtain ⟨k, j⟩ := e
    rw [List.lookup] at habs
    rw [decodeEntriesAux] at hok
    cases ha : (a == k) with
    | true => rw [ha] at habs; simp at habs
    | false =>
      rw [ha] at habs
      split at hok
      · cases hok
      · next v hv =>
        rw [ih (insertFM acc k v) m a hok habs]
        simp only [beq_eq_false_iff_ne, ne_eq] at ha
        exact insertFM_lookup_other acc k a v ha

theorem decodeEntriesAux_lookup_last (l : List (String × Json)) :
    ∀ acc m a j, decodeEntriesAux l acc = .ok m → lookupLast l a = some j →
    ∃ w, decode_field j = .ok w ∧ m.lookup a = some w := by
  induction l with
  | nil =>
    intro acc m a j _ hlast
    simp [lookupLast, List.lookup] at hlast
  | cons e rest ih =>
    intro acc m a j hok hlast
    obtain ⟨k, j0⟩ := e
    rw [decodeEntriesAux] at hok
    split at hok
    · cases hok
    · next v hv =>
      rw [lookupLast, List.reverse_cons, lookup_append] at hlast
      cases hrest : List.lookup a rest.reverse with
      | some jr =>
        rw [hrest] at hlast
        simp only [Option.some.injEq] at hlast
        subst hlast
        exact ih (insertFM acc k v) m a jr hok hrest
      | none =>
        rw [hrest] at hlast
        rw [List.lookup] at hlast
        cases ha : (a == k) with
        | true =>
          rw [ha] at hlast
          simp only [Option.some.injEq] at hlast
          subst hlast
          simp only [beq_iff_eq] at ha
          subst ha
          refine ⟨v, hv, ?_⟩
          have habs : rest.lookup a = none := (lookupLast_none_iff a rest).mp hrest
          rw [decodeEntriesAux_lookup_absent rest (insertFM acc a v) m a hok habs]
          exact insertFM_lookup_self acc a v
        | false =>
          rw [ha] at hlast
          simp [List.lookup] at hlast

theorem WFList_mem {l : List FirestoreType} (h : WFList l = true) {v : FirestoreType}
    (hv : v ∈ l) : WF v = true := by
  induction l with
  | nil => simp at hv
  | cons w rest ih =>
    rw [WFList, Bool.and_eq_true] at h
    rcases List.mem_cons.mp hv with heq | hmem
    · exact heq ▸ h.1
    · exact ih h.2 hmem

theorem WFEntries_mem {m : List (String × FirestoreType)} (h : WFEntries m = true)
    {e : String × FirestoreType} (he : e ∈ m) : WF e.2 = true := by
  induction m with
  | nil => simp at he
  | cons x rest ih =>
    obtain ⟨k, v⟩ := x
    rw [WFEntries, Bool.and_eq_true] at h
    rcases List.mem_cons.mp he with heq | hmem
    · exact heq ▸ h.1
    · exact ih h.2 hmem

theorem sizeOf_lt_of_mem_list {l : List FirestoreType} {v : FirestoreType} (h : v ∈ l) :
    sizeOf v < sizeOf l := by
  induction l with
  | nil => simp at h
  | cons w rest ih =>
    rcases List.mem_cons.mp h with heq | hmem
    · subst heq
      simp
      omega
    · have := ih hmem
      simp
      omega

theorem sizeOf_snd_lt_of_mem {m : List (String × FirestoreType)} {e : String × FirestoreType}
    (h : e ∈ m) : sizeOf e.2 < sizeOf m := by
  induction m with
  | nil => simp at h
  | cons x rest ih =>
    obtain ⟨k, v⟩ := x
    rcases List.mem_cons.mp h with heq | hmem
    · subst heq
      simp
      omega
    · have := ih hmem
      simp
      omega

theorem decodeElems_encodeList (l : List FirestoreType)
    (ihall : ∀ v ∈ l, decode_field (encode_field v) = .ok v) :
    decodeElems (encodeList l) = .ok l := by
  induction l with
  | nil => rw [encodeList, decodeElems]
  | cons v rest ih =>
    rw [encodeList, decodeElems, ihall v (by simp),
      ih (fun w hw => ihall w (by simp [hw]))]

theorem decodeEntriesAux_encodeEntries (m : List (String × FirestoreType)) :
    ∀ acc, (∀ e ∈ m, decode_field (encode_field e.2) = .ok e.2) →
    nodupKeys (m.map Prod.fst) = true →
    (∀ e ∈ m, acc.lookup e.1 = none) →
    decodeEntriesAux (encodeEntries m) acc = .ok (acc ++ m) := by
  induction m with
  | nil =>
    intro acc _ _ _
    rw [encodeEntries, decodeEntriesAux]
    simp
  | cons x rest ih =>
    intro acc ihall hnodup hdisj
    obtain ⟨k, v⟩ := x
    rw [encodeEntries, decodeEntriesAux, ihall (k, v) (by simp)]
    dsimp only
    rw [insertFM_fresh acc k v (hdisj (k, v) (by simp))]
    rw [List.map_cons, nodupKeys, Bool.and_eq_true] at hnodup
    have hknotin : ∀ x : FirestoreType, (k, x) ∉ rest := by
      have := hnodup.1
      simp at this
      exact this
    rw [ih (acc ++ [(k, v)]) (fun e he => ihall e (by simp [he])) hnodup.2 ?_]
    · simp
    · intro e he
      rw [lookup_append]
      rw [hdisj e (by simp [he])]
      rw [List.lookup]
      have hek : (e.1 == k) = false := by
        rw [beq_eq_false_iff_ne]
        intro hk
        have hpair : (e.1, e.2) ∈ rest := he
        rw [hk] at hpair
        exact hknotin e.2 hpair
      rw [hek]
      rfl

theorem decode_encode : ∀ (v : FirestoreType), WF v = true →
    decode_field (encode_field v) = .ok v
  | .Integer n, h => by
    obtain ⟨h1, h2⟩ : i32Min ≤ n ∧ n ≤ i32Max := of_decide_eq_true h
    show decode_field (.obj [("integerValue", .str (intDecString n))]) = _
    rw [decode_single _ _ _ (variantDecode_integer _)]
    simp only [decodeIntegerPayload, parseI32_intDecString n h1 h2]
  | .Boolean b, _ => by
    show decode_field (.obj [("booleanValue", .bool b)]) = _
    rw [decode_single _ _ _ (variantDecode_boolean _)]
    rfl
  | .String s, _ => by
    show decode_field (.obj [("stringValue", .str s)]) = _
    rw [decode_single _ _ _ (variantDecode_string _)]
    rfl
  | .Null, _ => by
    show decode_field (.obj [("nullValue", .null)]) = _
    rw [decode_single _ _ _ (variantDecode_null _)]
    rfl
  | .GeoLocation la lo, h => by
    obtain ⟨h1, h2, h3, h4⟩ :
        i32Min ≤ la ∧ la ≤ i32Max ∧ i32Min ≤ lo ∧ lo ≤ i32Max := of_decide_eq_true h
    show decode_field (.obj [("geoPointValue",
      .obj [("latitude", .num (.intL la)), ("longitude", .num (.intL lo))])]) = _
    rw [decode_single _ _ _ (variantDecode_geo _)]
    simp [decodeGeoPayload, decodeGeoEntries, decodeI32Number, h1, h2, h3, h4]
  | .Timestamp t, h => by
    have ht : validTs t = true := h
    show decode_field (.obj [("timestampValue", .str (encodeTs t))]) = _
    rw [decode_single _ _ _ (variantDecode_timestamp _)]
    simp only [decodeTimestampPayload, decodeTs_encodeTs t ht]
  | .Array items, h => by
    have hl : WFList items = true := h
    show decode_field (.obj [("arrayValue", .obj [("values", .arr (encodeList items))])]) = _
    rw [decode_single _ _ _ (variantDecode_array _)]
    have hd : decodeElems (encodeList items) = .ok items :=
      decodeElems_encodeList items (fun w hw => decode_encode w (WFList_mem hl hw))
    simp [decodeArrayPayload, decodeArrayEntries, hd]
  | .Map m, h => by
    have hm : (nodupKeys (m.map Prod.fst) && WFEntries m) = true := h
    rw [Bool.and_eq_true] at hm
    show decode_field (.obj [("mapValue", .obj [("fields", .obj (encodeEntries m))])]) = _
    rw [decode_single _ _ _ (variantDecode_map _)]
    have hd : decodeEntriesAux (encodeEntries m) [] = .ok m := by
      rw [decodeEntriesAux_encodeEntries m []
        (fun e he => decode_encode e.2 (WFEntries_mem hm.2 he))
        hm.1 (fun e _ => rfl)]
      simp
    simp [decodeMapPayload, decodeMapEntries, hd]
termination_by v _ => sizeOf v
decreasing_by
  · have := sizeOf_lt_of_mem_list hw
    simp
    omega
  · have := sizeOf_snd_lt_of_mem he
    simp
    omega

theorem two_le_length_of_mem {α : Type} {l : List α} {a b : α}
    (ha : a ∈ l) (hb : b ∈ l) (hne : a ≠ b) : 2 ≤ l.length := by
  induction l with
  | nil => simp at ha
  | cons c rest ih =>
    rcases List.mem_cons.mp ha with rfl | hma
    · rcases List.mem_cons.mp hb with rfl | hmb
      · exact absurd rfl hne
      · have := List.length_pos.mpr (List.ne_nil_of_mem hmb)
        simp
        omega
    · have := List.length_pos.mpr (List.ne_nil_of_mem hma)
      simp
      omega

/-- A depth-five representable value exercising every variant, with
`Integer` at both i32 extremes. -/
def sampleValue : FirestoreType :=
  .Map [("min", .Integer (-2147483648)),
        ("nested", .Array [.Map [("lvl3", .Array [.Map
          [("max", .Integer 2147483647),
           ("geo", .GeoLocation 40 (-74)),
           ("ts", .Timestamp ⟨2024, 1, 15, 10, 30, 0, 123456789⟩)]])]]),
        ("s", .String "fast"),
        ("n", .Null),
        ("b", .Boolean true)]

/-- C1 (counterexample): the claim's round trip fails at `Integer` i64::MAX —
the program's `Integer` is an i32, so decoding the encoded decimal string
overflows `i32::from_str`. -/
theorem roundtrip_law_cex :
    decode_field (encode_field (.Integer 9223372036854775807)) = .error .intPosOverflow := by
  have hs : intDecString 9223372036854775807 = "9223372036854775807" := by
    simp [intDecString, natDigits, digitChar]
  rw [show encode_field (.Integer 9223372036854775807)
      = .obj [("integerValue", .str (intDecString 9223372036854775807))] from rfl]
  rw [hs, decode_single _ _ _ (variantDecode_integer _)]
  rfl

/-- C1 (amended): for every value the program can represent — `Integer` and
`GeoLocation` coordinates within i32, calendar-valid timestamps, unique map
keys — decoding the §4.3 encoding yields exactly that value. -/
theorem roundtrip_law (v : FirestoreType) (h : WF v = true) :
    decode_field (encode_field v) = .ok v :=
  decode_encode v h

/-- Witness for C1 at a depth-five nested value containing both i32 extremes. -/
theorem roundtrip_law_witness :
    WF sampleValue = true ∧ decode_field (encode_field sampleValue) = .ok sampleValue :=
  ⟨by decide, roundtrip_law sampleValue (by decide)⟩

/-- C3 (counterexample): two-tag objects do not produce one dedicated
ambiguity error — the decoder dispatches on the first tag, so with a
well-formed first payload the extra key is rejected, while with a malformed
first payload the payload's own parse error is reported instead. -/
theorem tag_exclusivity_cex :
    decode_field (.obj [("integerValue", .str "1"), ("stringValue", .str "x")])
      = .error .expectedMapEnd ∧
    decode_field (.obj [("integerValue", .str "abc"), ("stringValue", .str "x")])
      = .error .intInvalidDigit := by
  constructor
  · exact decode_obj_cons_first_ok _ _ _ _ (.Integer 1)
      ((variantDecode_integer _).trans rfl)
  · exact decode_obj_cons_first_error _ _ _ _
      ((variantDecode_integer _).trans rfl)

/-- C3 (amended): a wire object carrying two or more distinct recognized
type-tag keys never decodes to a value — serde rejects any object that is
not a single-entry map — so competing tags are never silently resolved. -/
theorem tag_exclusivity (entries : List (String × Json)) (k1 k2 : String)
    (h1 : k1 ∈ tagKeys) (h2 : k2 ∈ tagKeys) (hne : k1 ≠ k2)
    (p1 : (entries.lookup k1).isSome = true) (p2 : (entries.lookup k2).isSome = true) :
    (∃ e, decode_field (.obj entries) = .error e) ∧
      ∀ v, decode_field (.obj entries) ≠ .ok v := by
  have hm1 : k1 ∈ entries.map Prod.fst := by
    by_contra hc
    rw [← lookup_none_iff] at hc
    rw [hc] at p1
    simp at p1
  have hm2 : k2 ∈ entries.map Prod.fst := by
    by_contra hc
    rw [← lookup_none_iff] at hc
    rw [hc] at p2
    simp at p2
  have hlen : 2 ≤ entries.length := by
    have := two_le_length_of_mem hm1 hm2 hne
    simpa using this
  match entries, hlen with
  | (k, p) :: e2 :: rest, _ =>
    refine ⟨?_, fun v => decode_cons2_not_ok k p e2 rest v⟩
    cases hvd : variantDecode k p with
    | none => exact ⟨.unknownVariant k, decode_obj_cons_unknown k p _ hvd⟩
    | some r =>
      cases r with
      | error e => exact ⟨e, decode_obj_cons_first_error k p _ e hvd⟩
      | ok w => exact ⟨.expectedMapEnd, decode_obj_cons_first_ok k p e2 rest w hvd⟩

/-- Witness for C3 at an object holding both integerValue and stringValue. -/
theorem tag_exclusivity_witness :
    (∃ e, decode_field (.obj [("integerValue", Json.str "1"), ("stringValue", Json.str "x")])
      = .error e) ∧
    ∀ v, decode_field (.obj [("integerValue", Json.str "1"), ("stringValue", Json.str "x")])
      ≠ .ok v :=
  tag_exclusivity _ "integerValue" "stringValue" (by decide) (by decide) (by decide)
    rfl rfl

/-- C4 (code bug, evaluated at the failing inputs): the `Array`/`Map`
structs (api.rs:36-44) have no serde default for `values`/`fields`, so the
empty composites Firestore legitimately sends fail with missing-field
errors instead of decoding to the empty Array/Map. -/
theorem empty_composites_bug :
    decode_field (.obj [("arrayValue", .obj [])]) = .error (.missingField "values") ∧
    decode_field (.obj [("mapValue", .obj [])]) = .error (.missingField "fields") := by
  constructor
  · rw [decode_single _ _ _ (variantDecode_array _)]
    simp [decodeArrayPayload, decodeArrayEntries]
  · rw [decode_single _ _ _ (variantDecode_map _)]
    simp [decodeMapPayload, decodeMapEntries]

/-- C5: decode_fields (the `FirestoreFields` HashMap deserialization)
requires a JSON object, decodes every entry's value with decode_field,
aborts on the first failing entry with that entry's error and no partial
result, and on success returns the complete field map, binding exactly the
input's names. -/
theorem decode_fields_contract :
    (∀ j : Json, (∀ entries, j ≠ .obj entries) →
      decode_fields j = .error (.invalidType "map"))
    ∧ (∀ l : List (String × Json), (∀ x ∈ l, ∃ v, decode_field x.2 = .ok v) →
      ∃ m, decode_fields (.obj l) = .ok m ∧
        ∀ a, (m.lookup a).isSome = (l.lookup a).isSome)
    ∧ (∀ (l1 : List (String × Json)) (k : String) (j : Json) l2 e,
      (∀ x ∈ l1, ∃ v, decode_field x.2 = .ok v) → decode_field j = .error e →
      decode_fields (.obj (l1 ++ (k, j) :: l2)) = .error e) := by
  refine ⟨?_, ?_, ?_⟩
  · intro j hj
    cases j with
    | obj entries => exact absurd rfl (hj entries)
    | null => rfl
    | bool b => rfl
    | num q => rfl
    | str s => rfl
    | arr a => rfl
  · intro l hall
    obtain ⟨m, hm, hkeys⟩ := decodeEntriesAux_all_ok l [] hall
    refine ⟨m, hm, fun a => ?_⟩
    rw [hkeys a]
    rfl
  · intro l1 k j l2 e hall herr
    exact decodeEntriesAux_first_error l1 [] k j l2 e hall herr

/-- Witness for C5: an object whose second entry is undecodable fails with
exactly that entry's error. -/
theorem decode_fields_contract_witness :
    decode_fields (.obj ([("a", .obj [("stringValue", Json.str "x")])] ++
      ("b", Json.obj []) :: [])) = .error .expectedVariant :=
  decode_fields_contract.2.2 [("a", .obj [("stringValue", Json.str "x")])] "b"
    (Json.obj []) [] .expectedVariant
    (by
      intro x hx
      simp only [List.mem_singleton] at hx
      subst hx
      exact ⟨.String "x", (decode_single _ _ _ (variantDecode_string _)).trans rfl⟩)
    (by simp [decode_field])

/-- C6 (code bug, evaluated at the failing input): `GeoPoint` in api.rs has
i32 latitude/longitude, so the fractional double coordinates of a real
geopoint fail with an invalid-type error; only integer-literal coordinates
decode, truncating the type's intent. -/
theorem geopoint_fractional_bug :
    decode_field (.obj [("geoPointValue",
      .obj [("latitude", .num (.floatL (407 / 10))), ("longitude", .num (.floatL (-74)))])])
      = .error (.invalidType "i32") ∧
    decode_field (.obj [("geoPointValue",
      .obj [("latitude", .num (.intL 40)), ("longitude", .num (.intL (-74)))])])
      = .ok (.GeoLocation 40 (-74)) := by
  constructor
  · rw [decode_single _ _ _ (variantDecode_geo _)]
    rfl
  · rw [decode_single _ _ _ (variantDecode_geo _)]
    rfl

/-- C7 (counterexample): a non-null payload under nullValue does not decode
to Null — serde's unit variant requires the payload to be JSON null. -/
theorem null_presence_cex :
    decode_field (.obj [("nullValue", .num (.intL 5))]) = .error (.invalidType "unit") := by
  rw [decode_single _ _ _ (variantDecode_null _)]
  rfl

/-- C7 (amended): `{"nullValue":null}` decodes to Null, and any other
payload under the nullValue key is an invalid-type error. -/
theorem null_presence :
    decode_field (.obj [("nullValue", .null)]) = .ok .Null ∧
    ∀ x : Json, x ≠ .null → decode_field (.obj [("nullValue", x)])
      = .error (.invalidType "unit") := by
  constructor
  · rw [decode_single _ _ _ (variantDecode_null _)]
    rfl
  · intro x hx
    rw [decode_single _ _ _ (variantDecode_null _)]
    cases x with
    | null => exact absurd rfl hx
    | bool b => rfl
    | num q => rfl
    | str s => rfl
    | arr l => rfl
    | obj l => rfl

/-- Witness for C7 at a boolean payload. -/
theorem null_presence_witness :
    decode_field (.obj [("nullValue", .bool true)]) = .error (.invalidType "unit") :=
  null_presence.2 (.bool true) (by simp)

/-- C8 (counterexample): the two zero-recognized-key objects `{}` and
`{"foo":null}` fail with two different errors — the empty-object rejection
and serde's unknown-variant error — not with one dedicated
UnknownValueType, which the code does not have. -/
theorem unknown_tag_cex :
    decode_field (.obj []) = .error .expectedVariant ∧
    decode_field (.obj [("foo", Json.null)]) = .error (.unknownVariant "foo") ∧
    DeError.expectedVariant ≠ DeError.unknownVariant "foo" := by
  refine ⟨by simp [decode_field], ?_, by decide⟩
  exact decode_obj_cons_unknown "foo" Json.null []
    (variantDecode_unknown "foo" Json.null (by decide))

/-- C8 (amended): every wire object with no recognized type-tag key fails to
decode — the empty object with the missing-variant rejection, any other
with serde's unknown-variant error naming its first key. -/
theorem unknown_tag :
    decode_field (.obj []) = .error .expectedVariant ∧
    ∀ (k : String) (p : Json) (rest : List (String × Json)),
      (∀ t ∈ tagKeys, List.lookup t ((k, p) :: rest) = none) →
      decode_field (.obj ((k, p) :: rest)) = .error (.unknownVariant k) := by
  constructor
  · simp [decode_field]
  · intro k p rest h
    have hk : ∀ t ∈ tagKeys, k ≠ t := by
      intro t ht heq
      have h2 := h t ht
      rw [List.lookup] at h2
      rw [show (t == k) = true from beq_iff_eq.mpr heq.symm] at h2
      simp at h2
    exact decode_obj_cons_unknown k p rest (variantDecode_unknown k p hk)

/-- Witness for C8 at an object with a single unrecognized key. -/
theorem unknown_tag_witness :
    decode_field (.obj [("bar", Json.str "x")]) = .error (.unknownVariant "bar") :=
  unknown_tag.2 "bar" (Json.str "x") []
    (by intro t ht; fin_cases ht <;> rfl)

/-- C9: the nested mapValue/arrayValue document decodes end-to-end to
Map(wheels = Integer 4, tags = Array(String "fast", Null)), exercising the
recursive descent of the serde-derived decoder. -/
theorem nested_decode :
    decode_field (.obj [("mapValue", .obj [("fields", .obj
      [("wheels", .obj [("integerValue", .str "4")]),
       ("tags", .obj [("arrayValue", .obj [("values", .arr
         [.obj [("stringValue", .str "fast")], .obj [("nullValue", .null)]])])])])])])
    = .ok (.Map [("wheels", .Integer 4), ("tags", .Array [.String "fast", .Null])]) := by
  have h1 : decode_field (.obj [("integerValue", .str "4")]) = .ok (.Integer 4) :=
    (decode_single _ _ _ (variantDecode_integer _)).trans rfl
  have h2 : decode_field (.obj [("stringValue", .str "fast")]) = .ok (.String "fast") :=
    (decode_single _ _ _ (variantDecode_string _)).trans rfl
  have h3 : decode_field (.obj [("nullValue", .null)]) = .ok .Null :=
    (decode_single _ _ _ (variantDecode_null _)).trans rfl
  have h4 : decode_field (.obj [("arrayValue", .obj [("values", .arr
      [.obj [("stringValue", .str "fast")], .obj [("nullValue", .null)]])])])
      = .ok (.Array [.String "fast", .Null]) := by
    rw [decode_single _ _ _ (variantDecode_array _)]
    simp [decodeArrayPayload, decodeArrayEntries, decodeElems, h2, h3]
  rw [decode_single _ _ _ (variantDecode_map _)]
  simp [decodeMapPayload, decodeMapEntries, decodeEntriesAux, h1, h4, insertFM]

/-- C10: duplicate field names in the object given to decode_fields do not
make decoding fail by themselves; the resulting field map binds the name to
the decoded value of its last occurrence (HashMap overwrite). -/
theorem duplicate_field_last_wins (l : List (String × Json)) (k : String) (j : Json)
    (hall : ∀ x ∈ l, ∃ v, decode_field x.2 = .ok v)
    (hlast : lookupLast l k = some j) :
    ∃ m w, decode_fields (.obj l) = .ok m ∧ decode_field j = .ok w ∧
      m.lookup k = some w := by
  obtain ⟨m, hm, _⟩ := decodeEntriesAux_all_ok l [] hall
  obtain ⟨w, hw, hlk⟩ := decodeEntriesAux_lookup_last l [] m k j hm hlast
  exact ⟨m, w, hm, hw, hlk⟩

/-- Witness for C10: the same name bound twice decodes to the second value. -/
theorem duplicate_field_last_wins_witness :
    ∃ m w, decode_fields (.obj [("a", .obj [("integerValue", .str "1")]),
        ("a", .obj [("integerValue", .str "2")])]) = .ok m ∧
      decode_field (.obj [("integerValue", Json.str "2")]) = .ok w ∧
      m.lookup "a" = some w :=
  duplicate_field_last_wins
    [("a", .obj [("integerValue", .str "1")]), ("a", .obj [("integerValue", .str "2")])]
    "a" (.obj [("integerValue", .str "2")])
    (by
      intro x hx
      rcases List.mem_cons.mp hx with rfl | hx2
      · exact ⟨.Integer 1, (decode_single _ _ _ (variantDecode_integer _)).trans rfl⟩
      · rcases List.mem_cons.mp hx2 with rfl | hx3
        · exact ⟨.Integer 2, (decode_single _ _ _ (variantDecode_integer _)).trans rfl⟩
        · simp at hx3)
    rfl

end Firesale
